import Mathlib

set_option maxHeartbeats 1000000

/-!
Shallow embedding of the Konkani Collector sentence segmenter
(`splitIntoSentences` in `scripts/import-story.js`) and of the canonical
transliteration helper (`devanagariToIAST`, `applyRules` and the rule-set
load in `backend/utils/transliterate-canonical.js`).  Strings are modelled
as lists of Unicode scalar characters.
-/

/-- JS whitespace class: the characters matched by the regex escape for
whitespace and removed by `String.prototype.trim` (tab, line feed, vertical
tab, form feed, carriage return, space, no-break space, Ogham space mark,
the general space separators, line and paragraph separators, narrow
no-break space, medium mathematical space, ideographic space, BOM). -/
def isWS (c : Char) : Bool :=
  let n := c.toNat
  n = 9 || n = 10 || n = 11 || n = 12 || n = 13 || n = 32 || n = 160 ||
  n = 0x1680 || (0x2000 ≤ n && n ≤ 0x200A) || n = 0x2028 || n = 0x2029 ||
  n = 0x202F || n = 0x205F || n = 0x3000 || n = 0xFEFF

/-- JS `String.prototype.trim`: drop whitespace from both ends. -/
def trim (s : List Char) : List Char :=
  ((s.dropWhile isWS).reverse.dropWhile isWS).reverse

/-- Emit step of `splitIntoSentences`: trim the accumulated buffer and push
it when non-empty (`const trimmed = current.trim(); if (trimmed)
sentences.push(trimmed);`). -/
def emitTrim (cur : List Char) : List (List Char) :=
  if trim cur = [] then [] else [trim cur]

/-- Scanner state of `splitIntoSentences`: the accumulated buffer `current`
and the `inQuote` flag. -/
structure ScanState where
  current : List Char
  inQuote : Bool
deriving DecidableEq, Repr

/-- One iteration of the character loop of `splitIntoSentences`
(`scripts/import-story.js`, lines 46-89): returns the next state and the
sentences emitted by this character.  Branch order follows the source:
the double quote first, then the in-quote catch-all, then danda marks,
then newline, then Latin sentence-final punctuation, then plain append. -/
def scanChar (st : ScanState) (c : Char) : ScanState × List (List Char) :=
  if c = '"' then
    let cur := st.current ++ [c]
    if st.inQuote then (⟨[], false⟩, emitTrim cur)
    else (⟨cur, true⟩, [])
  else if st.inQuote then (⟨st.current ++ [c], true⟩, [])
  else if c = '।' || c = '॥' then (⟨[], false⟩, emitTrim (st.current ++ [c]))
  else if c = '\n' then (⟨[], false⟩, emitTrim st.current)
  else if c = '.' || c = '!' || c = '?' then
    (⟨[], false⟩, emitTrim (st.current ++ [c]))
  else (⟨st.current ++ [c], st.inQuote⟩, [])

/-- The character loop of `splitIntoSentences`, folded over the input. -/
def scanList (st : ScanState) : List Char → ScanState × List (List Char)
  | [] => (st, [])
  | c :: cs =>
    ((scanList (scanChar st c).1 cs).1,
      (scanChar st c).2 ++ (scanList (scanChar st c).1 cs).2)

/-- The raw segment list `sentences` of `splitIntoSentences`: run the
character loop from the initial state and flush the final buffer
(lines 44-92 of `scripts/import-story.js`). -/
def rawSegments (s : List Char) : List (List Char) :=
  let r := scanList ⟨[], false⟩ s
  r.2 ++ emitTrim r.1.current

/-- Letter test of the repair pass.  The source tests the regex class of
any Unicode letter together with the Devanagari block 0900-097F; the
general letter property is approximated here by the Latin alphabetic
ranges, which is the part the proofs depend on (letters are disjoint from
whitespace and from the splitting punctuation). -/
def isLetterChar (c : Char) : Bool :=
  let n := c.toNat
  (65 ≤ n && n ≤ 90) || (97 ≤ n && n ≤ 122) || (0x900 ≤ n && n ≤ 0x97F)

/-- Whether a segment contains a letter character (`hasLetter` in the
source's `isStandalonePunc`). -/
def hasLetter (s : List Char) : Bool := s.any isLetterChar

/-- `isStandalonePunc` of `splitIntoSentences` (lines 94-98): false on
empty or whitespace-only segments, otherwise true exactly when the
segment has no letter. -/
def isStandalonePunc (s : List Char) : Bool :=
  if s = [] || trim s = [] then false else !(hasLetter s)

/-- The repair loop of `splitIntoSentences` (lines 100-115), with the
accepted sentences `result` carried in reverse order (its head is the
most recently accepted sentence, the one the source mutates in place).
A standalone-punctuation fragment is appended to the previous accepted
sentence when one exists, otherwise prepended to the following raw
segment when one exists, otherwise kept as its own unit. -/
def repairAux (rev : List (List Char)) : List (List Char) → List (List Char)
  | [] => rev.reverse
  | seg :: rest =>
    if seg = [] then repairAux rev rest
    else if isStandalonePunc seg then
      match rev with
      | r :: rs => repairAux (trim (r ++ ' ' :: seg) :: rs) rest
      | [] =>
        match rest with
        | next :: rest2 => repairAux [] (trim (seg ++ ' ' :: next) :: rest2)
        | [] => repairAux [seg] []
    else repairAux (seg :: rev) rest
termination_by pending => pending.length
decreasing_by all_goals simp_all

/-- `splitIntoSentences` (`scripts/import-story.js`, lines 41-118): scan,
repair, and filter out empty strings. -/
def splitIntoSentences (s : List Char) : List (List Char) :=
  (repairAux [] (rawSegments s)).filter (fun t => t ≠ [])

/-- Join a list of sentences with a single space between consecutive
sentences (the rejoining operation of the completeness property). -/
def joinSpace : List (List Char) → List Char
  | [] => []
  | [s] => s
  | s :: t :: rest => s ++ ' ' :: joinSpace (t :: rest)

/-- The non-whitespace characters of a string, in order. -/
def nonWS (s : List Char) : List Char := s.filter (fun c => !(isWS c))

/-! ### Whitespace, letters, and trimming -/

lemma isWS_of_letter {c : Char} (h : isLetterChar c = true) : isWS c = false := by
  simp [isLetterChar] at h
  simp [isWS]
  omega

lemma filter_dropWhile_eq {p q : Char → Bool} (hpq : ∀ c, q c = true → p c = false) :
    ∀ l : List Char, (l.dropWhile q).filter p = l.filter p := by
  intro l
  induction l with
  | nil => rfl
  | cons c cs ih =>
    by_cases h : q c = true
    · rw [List.dropWhile_cons, if_pos h, ih, List.filter_cons, hpq c h]
      simp
    · rw [List.dropWhile_cons, if_neg h]

lemma any_dropWhile_eq {p q : Char → Bool} (hpq : ∀ c, q c = true → p c = false) :
    ∀ l : List Char, (l.dropWhile q).any p = l.any p := by
  intro l
  induction l with
  | nil => rfl
  | cons c cs ih =>
    by_cases h : q c = true
    · rw [List.dropWhile_cons, if_pos h, ih, List.any_cons, hpq c h]
      simp
    · rw [List.dropWhile_cons, if_neg h]

lemma any_reverse_eq (p : Char → Bool) (l : List Char) : l.reverse.any p = l.any p := by
  induction l with
  | nil => rfl
  | cons c cs ih => simp [List.any_append, ih, Bool.or_comm]

lemma filter_trim {p : Char → Bool} (hp : ∀ c, isWS c = true → p c = false)
    (l : List Char) : (trim l).filter p = l.filter p := by
  unfold trim
  rw [List.filter_reverse, filter_dropWhile_eq hp, List.filter_reverse,
    filter_dropWhile_eq hp, List.reverse_reverse]

lemma any_trim {p : Char → Bool} (hp : ∀ c, isWS c = true → p c = false)
    (l : List Char) : (trim l).any p = l.any p := by
  unfold trim
  rw [any_reverse_eq, any_dropWhile_eq hp, any_reverse_eq, any_dropWhile_eq hp]

lemma nonWS_trim (l : List Char) : nonWS (trim l) = nonWS l :=
  filter_trim (by intro c h; simp [h]) l

lemma nonWS_append (a b : List Char) : nonWS (a ++ b) = nonWS a ++ nonWS b :=
  List.filter_append a b

lemma hasLetter_trim (l : List Char) : hasLetter (trim l) = hasLetter l := by
  apply any_trim
  intro c h
  cases hl : isLetterChar c
  · rfl
  · rw [isWS_of_letter hl] at h
    exact absurd h (by simp)

lemma hasLetter_append (a b : List Char) :
    hasLetter (a ++ b) = (hasLetter a || hasLetter b) := List.any_append

lemma dropWhile_head_false {q : Char → Bool} :
    ∀ {l : List Char} {c rest}, l.dropWhile q = c :: rest → q c = false := by
  intro l
  induction l with
  | nil => intro c rest h; simp [List.dropWhile] at h
  | cons x xs ih =>
    intro c rest h
    rw [List.dropWhile_cons] at h
    by_cases hx : q x = true
    · rw [if_pos hx] at h; exact ih h
    · rw [if_neg hx] at h
      cases h
      simpa using hx

lemma dropWhile_dropWhile (q : Char → Bool) (l : List Char) :
    (l.dropWhile q).dropWhile q = l.dropWhile q := by
  cases h : l.dropWhile q with
  | nil => rfl
  | cons c rest => rw [List.dropWhile_cons, if_neg (by simp [dropWhile_head_false h])]

lemma trim_prefix_dropWhile (l : List Char) : trim l <+: l.dropWhile isWS := by
  rw [← List.reverse_suffix]
  show ((l.dropWhile isWS).reverse.dropWhile isWS).reverse.reverse <:+ _
  rw [List.reverse_reverse]
  exact List.dropWhile_suffix isWS

lemma trim_head_notWS {l : List Char} {c : Char} {rest : List Char}
    (h : trim l = c :: rest) : isWS c = false := by
  obtain ⟨t, ht⟩ := trim_prefix_dropWhile l
  rw [h] at ht
  exact dropWhile_head_false ht.symm

lemma trim_trim (l : List Char) : trim (trim l) = trim l := by
  cases h : trim l with
  | nil => rfl
  | cons c rest =>
    have hc := trim_head_notWS h
    have h1 : (c :: rest).dropWhile isWS = c :: rest := by
      rw [List.dropWhile_cons, if_neg (by simp [hc])]
    have h2 : (c :: rest).reverse.dropWhile isWS = (c :: rest).reverse := by
      rw [← h]
      show ((((l.dropWhile isWS).reverse.dropWhile isWS).reverse).reverse).dropWhile isWS = _
      rw [List.reverse_reverse, dropWhile_dropWhile]
      show _ = (((l.dropWhile isWS).reverse.dropWhile isWS).reverse).reverse
      rw [List.reverse_reverse]
    show ((((c :: rest).dropWhile isWS).reverse).dropWhile isWS).reverse = c :: rest
    rw [h1, h2, List.reverse_reverse]

lemma trim_nonempty_of_mem {l : List Char} {c : Char} (hc : isWS c = false)
    (hmem : c ∈ l) : trim l ≠ [] := by
  intro h
  have h2 : nonWS (trim l) = nonWS l := nonWS_trim l
  rw [h] at h2
  have h3 : c ∈ nonWS l := List.mem_filter.mpr ⟨hmem, by simp [hc]⟩
  rw [← h2] at h3
  simp [nonWS] at h3

/-! ### Infixes survive trimming when they start and end with non-whitespace -/

lemma infix_dropWhile {c : Char} {s l : List Char} (hc : isWS c = false)
    (h : (c :: s) <:+: l) : (c :: s) <:+: l.dropWhile isWS := by
  induction l with
  | nil =>
    obtain ⟨p, t, hpt⟩ := h
    cases p <;> simp at hpt
  | cons x xs ih =>
    by_cases hx : isWS x = true
    · rw [List.dropWhile_cons, if_pos hx]
      apply ih
      obtain ⟨p, t, hpt⟩ := h
      cases p with
      | nil =>
        injection hpt with h1 h2
        rw [← h1] at hx
        rw [hc] at hx
        exact absurd hx (by simp)
      | cons y p2 =>
        injection hpt with h1 h2
        exact ⟨p2, t, h2⟩
    · rw [List.dropWhile_cons, if_neg hx]
      exact h

lemma infix_trim {c d : Char} {m x : List Char} (hc : isWS c = false)
    (hd : isWS d = false) (h : (c :: m ++ [d]) <:+: x) :
    (c :: m ++ [d]) <:+: trim x := by
  have h1 : (c :: m ++ [d]) <:+: x.dropWhile isWS := infix_dropWhile hc h
  have h2 : (d :: (m.reverse ++ [c])) <:+: (x.dropWhile isWS).reverse := by
    have := List.reverse_infix.mpr h1
    simpa using this
  have h3 := infix_dropWhile hd h2
  have h4 := List.reverse_infix.mpr h3
  show (c :: m ++ [d]) <:+: ((x.dropWhile isWS).reverse.dropWhile isWS).reverse
  simpa using h4

lemma infix_trim_append_left {c d : Char} {m a x : List Char} (hc : isWS c = false)
    (hd : isWS d = false) (h : (c :: m ++ [d]) <:+: a) :
    (c :: m ++ [d]) <:+: trim (a ++ x) := by
  apply infix_trim hc hd
  exact h.trans ⟨[], x, by simp⟩

lemma infix_trim_append_right {c d : Char} {m a x : List Char} (hc : isWS c = false)
    (hd : isWS d = false) (h : (c :: m ++ [d]) <:+: x) :
    (c :: m ++ [d]) <:+: trim (a ++ x) := by
  apply infix_trim hc hd
  exact h.trans ⟨a, [], by simp⟩

/-! ### Scanner lemmas -/

lemma scanList_append (a : List Char) : ∀ (b : List Char) (st : ScanState),
    scanList st (a ++ b) =
      ((scanList (scanList st a).1 b).1,
        (scanList st a).2 ++ (scanList (scanList st a).1 b).2) := by
  induction a with
  | nil => intro b st; simp [scanList]
  | cons c cs ih =>
    intro b st
    show scanList st (c :: (cs ++ b)) = _
    rw [scanList, ih b (scanChar st c).1]
    simp [scanList]

lemma scanChar_inQuote (st : ScanState) (c : Char) :
    (scanChar st c).1.inQuote = (if c = '"' then !st.inQuote else st.inQuote) := by
  by_cases h1 : c = '"'
  · by_cases h2 : st.inQuote <;> simp [scanChar, h1, h2]
  · by_cases h2 : st.inQuote
    · simp [scanChar, h1, h2]
    · simp only [scanChar, if_neg h1]
      simp only [h2, Bool.false_eq_true, if_false, if_neg]
      split_ifs <;> simp [h2]

lemma scanList_parity (s : List Char) : ∀ st : ScanState,
    (scanList st s).1.inQuote =
      (st.inQuote != decide (s.count '"' % 2 = 1)) := by
  induction s with
  | nil => intro st; simp [scanList]
  | cons c cs ih =>
    intro st
    rw [scanList]
    show (scanList (scanChar st c).1 cs).1.inQuote = _
    rw [ih, scanChar_inQuote]
    by_cases h1 : c = '"'
    · have hcount : (c :: cs).count '"' = cs.count '"' + 1 := by
        rw [List.count_cons]; simp [h1]
      rw [hcount, if_pos h1]
      by_cases hp : cs.count '"' % 2 = 1
      · have hp2 : ¬((cs.count '"' + 1) % 2 = 1) := by omega
        simp [hp, hp2]
      · have hp2 : (cs.count '"' + 1) % 2 = 1 := by omega
        simp [hp, hp2]
    · have hcount : (c :: cs).count '"' = cs.count '"' := by
        rw [List.count_cons]; simp [h1]
      rw [hcount, if_neg h1]

lemma scanList_quoteRun {m : List Char} (h : '"' ∉ m) : ∀ cur : List Char,
    scanList ⟨cur, true⟩ m = (⟨cur ++ m, true⟩, []) := by
  induction m with
  | nil => intro cur; simp [scanList]
  | cons c cs ih =>
    intro cur
    have hc : ¬(c = '"') := fun hh => h (hh ▸ List.mem_cons_self c cs)
    have hcs : '"' ∉ cs := fun hh => h (List.mem_cons_of_mem c hh)
    rw [scanList]
    show ((scanList (scanChar ⟨cur, true⟩ c).1 cs).1,
      (scanChar ⟨cur, true⟩ c).2 ++ (scanList (scanChar ⟨cur, true⟩ c).1 cs).2) = _
    have hstep : scanChar ⟨cur, true⟩ c = (⟨cur ++ [c], true⟩, []) := by
      simp [scanChar, hc]
    rw [hstep]
    simp [ih hcs (cur ++ [c])]

lemma emitTrim_mem {x t : List Char} (h : t ∈ emitTrim x) : t = trim x ∧ trim x ≠ [] := by
  unfold emitTrim at h
  split_ifs at h with h1
  · simp at h
  · simp at h
    exact ⟨h, h1⟩

lemma scanChar_out {st : ScanState} {c : Char} {t : List Char}
    (h : t ∈ (scanChar st c).2) : trim t = t ∧ t ≠ [] := by
  have key : ∀ x, t ∈ emitTrim x → trim t = t ∧ t ≠ [] := by
    intro x hx
    obtain ⟨ht, hne⟩ := emitTrim_mem hx
    subst ht
    exact ⟨trim_trim x, hne⟩
  unfold scanChar at h
  split_ifs at h <;> first
    | exact key _ h
    | simp at h

lemma scanList_out : ∀ {s : List Char} {st : ScanState} {t : List Char},
    t ∈ (scanList st s).2 → trim t = t ∧ t ≠ [] := by
  intro s
  induction s with
  | nil => intro st t h; simp [scanList] at h
  | cons c cs ih =>
    intro st t h
    rw [scanList] at h
    rcases List.mem_append.mp h with h1 | h2
    · exact scanChar_out h1
    · exact ih h2

lemma rawSegments_out {s t : List Char} (h : t ∈ rawSegments s) :
    trim t = t ∧ t ≠ [] := by
  simp only [rawSegments] at h
  rcases List.mem_append.mp h with h1 | h2
  · exact scanList_out h1
  · obtain ⟨ht, hne⟩ := emitTrim_mem h2
    subst ht
    exact ⟨trim_trim _, hne⟩

/-! ### The scan loses exactly the whitespace and newline delimiters -/

lemma nonWS_emitTrim (x : List Char) : nonWS (emitTrim x).flatten = nonWS x := by
  unfold emitTrim
  split_ifs with h
  · have h2 := nonWS_trim x
    rw [h] at h2
    simpa [List.flatten] using h2
  · simpa [List.flatten] using nonWS_trim x

lemma nonWS_scanChar (st : ScanState) (c : Char) :
    nonWS ((scanChar st c).2.flatten ++ (scanChar st c).1.current) =
      nonWS (st.current ++ [c]) := by
  unfold scanChar
  split_ifs with h1 h2 h3 h4 h5 h6
  · simp only []
    rw [List.append_nil, nonWS_emitTrim]
  · simp [List.flatten]
  · simp [List.flatten]
  · simp only []
    rw [List.append_nil, nonWS_emitTrim]
  · simp only []
    rw [List.append_nil, nonWS_emitTrim, nonWS_append]
    subst h5
    simp [nonWS, isWS]
  · simp only []
    rw [List.append_nil, nonWS_emitTrim]
  · simp [List.flatten]

lemma nonWS_scanList (s : List Char) : ∀ st : ScanState,
    nonWS ((scanList st s).2.flatten ++ (scanList st s).1.current) =
      nonWS (st.current ++ s) := by
  induction s with
  | nil => intro st; simp [scanList]
  | cons c cs ih =>
    intro st
    rw [scanList]
    show nonWS (((scanChar st c).2 ++ (scanList (scanChar st c).1 cs).2).flatten ++
        (scanList (scanChar st c).1 cs).1.current) = nonWS (st.current ++ c :: cs)
    calc nonWS (((scanChar st c).2 ++ (scanList (scanChar st c).1 cs).2).flatten ++
          (scanList (scanChar st c).1 cs).1.current)
        = nonWS ((scanChar st c).2.flatten) ++
            nonWS ((scanList (scanChar st c).1 cs).2.flatten ++
              (scanList (scanChar st c).1 cs).1.current) := by
          rw [List.flatten_append, List.append_assoc, nonWS_append]
      _ = nonWS ((scanChar st c).2.flatten) ++
            nonWS ((scanChar st c).1.current ++ cs) := by
          rw [ih (scanChar st c).1]
      _ = (nonWS ((scanChar st c).2.flatten) ++ nonWS ((scanChar st c).1.current)) ++
            nonWS cs := by
          rw [nonWS_append, List.append_assoc]
      _ = nonWS (st.current ++ [c]) ++ nonWS cs := by
          rw [← nonWS_append, nonWS_scanChar]
      _ = nonWS (st.current ++ c :: cs) := by
          rw [← nonWS_append, List.append_assoc]
          rfl

lemma nonWS_rawSegments (s : List Char) : nonWS (rawSegments s).flatten = nonWS s := by
  have h := nonWS_scanList s ⟨[], false⟩
  simp only [rawSegments]
  rw [List.flatten_append, nonWS_append, nonWS_emitTrim, ← nonWS_append, h]
  simp

/-! ### Step equations for the repair loop -/

lemma repairAux_cons (rev : List (List Char)) (seg : List Char)
    (rest : List (List Char)) :
    repairAux rev (seg :: rest) =
      if seg = [] then repairAux rev rest
      else if isStandalonePunc seg = true then
        match rev with
        | r :: rs => repairAux (trim (r ++ ' ' :: seg) :: rs) rest
        | [] =>
          match rest with
          | next :: rest2 => repairAux [] (trim (seg ++ ' ' :: next) :: rest2)
          | [] => repairAux [seg] []
      else repairAux (seg :: rev) rest := by
  cases rev with
  | nil =>
    cases rest with
    | nil => rw [repairAux.eq_4]
    | cons next rest2 => rw [repairAux.eq_3]
  | cons r rs => rw [repairAux.eq_2]

lemma repairAux_skip (rev rest : List (List Char)) :
    repairAux rev ([] :: rest) = repairAux rev rest := by
  rw [repairAux_cons]
  simp

lemma repairAux_merge {seg : List Char} (hne : seg ≠ [])
    (hp : isStandalonePunc seg = true) (r : List Char) (rs rest : List (List Char)) :
    repairAux (r :: rs) (seg :: rest) = repairAux (trim (r ++ ' ' :: seg) :: rs) rest := by
  rw [repairAux_cons]
  simp [hne, hp]

lemma repairAux_prepend {seg : List Char} (hne : seg ≠ [])
    (hp : isStandalonePunc seg = true) (next : List Char) (rest2 : List (List Char)) :
    repairAux [] (seg :: next :: rest2) =
      repairAux [] (trim (seg ++ ' ' :: next) :: rest2) := by
  rw [repairAux_cons]
  simp [hne, hp]

lemma repairAux_orphan {seg : List Char} (hne : seg ≠ [])
    (hp : isStandalonePunc seg = true) :
    repairAux [] [seg] = repairAux [seg] [] := by
  rw [repairAux_cons]
  simp [hne, hp]

lemma repairAux_push {seg : List Char} (hne : seg ≠ [])
    (hp : isStandalonePunc seg = false) (rev rest : List (List Char)) :
    repairAux rev (seg :: rest) = repairAux (seg :: rev) rest := by
  rw [repairAux_cons]
  simp [hne, hp]

/-! ### The repair pass preserves the non-whitespace content -/

lemma nonWS_space_cons (s : List Char) : nonWS (' ' :: s) = nonWS s := by
  have h : isWS ' ' = true := by decide
  simp [nonWS, List.filter_cons, h]

lemma flatten_filter_ne (L : List (List Char)) :
    (L.filter (fun t => t ≠ [])).flatten = L.flatten := by
  induction L with
  | nil => rfl
  | cons x xs ih =>
    rw [List.filter_cons]
    by_cases hx : x = []
    · rw [if_neg (by simp [hx]), ih, hx, List.flatten_cons]
      simp
    · rw [if_pos (by simp [hx]), List.flatten_cons, List.flatten_cons, ih]

lemma nonWS_repairAux : ∀ rev pending : List (List Char),
    nonWS (repairAux rev pending).flatten =
      nonWS rev.reverse.flatten ++ nonWS pending.flatten := by
  intro rev pending
  induction rev, pending using repairAux.induct with
  | case1 rev => rw [repairAux.eq_1]; simp [nonWS]
  | case2 rev rest ih =>
    rw [repairAux_skip, ih]
    simp [nonWS]
  | case3 seg rest hne hp next rest2 ih =>
    rw [repairAux_merge hne hp, ih]
    simp only [List.reverse_cons, List.flatten_append, List.flatten_cons,
      List.flatten_nil, List.append_nil, nonWS_append, nonWS_trim, nonWS_space_cons,
      List.append_assoc]
  | case4 seg hne hp next rest2 ih =>
    rw [repairAux_prepend hne hp, ih]
    simp only [List.reverse_nil, List.flatten_nil, List.flatten_cons, nonWS_append,
      nonWS_trim, nonWS_space_cons, List.append_assoc, List.nil_append]
  | case5 seg hne hp ih =>
    rw [repairAux_orphan hne hp, ih]
    simp [nonWS]
  | case6 rev seg rest hne hp ih =>
    rw [repairAux_push hne (by simpa using hp), ih]
    simp only [List.reverse_cons, List.flatten_append, List.flatten_cons,
      List.flatten_nil, List.append_nil, nonWS_append, List.append_assoc]

lemma nonWS_splitIntoSentences (s : List Char) :
    nonWS (splitIntoSentences s).flatten = nonWS s := by
  unfold splitIntoSentences
  rw [flatten_filter_ne, nonWS_repairAux [] (rawSegments s), nonWS_rawSegments]
  simp [nonWS]

lemma nonWS_joinSpace : ∀ L : List (List Char), nonWS (joinSpace L) = nonWS L.flatten := by
  intro L
  induction L with
  | nil => rfl
  | cons x xs ih =>
    cases xs with
    | nil => simp [joinSpace, nonWS]
    | cons y ys =>
      show nonWS (x ++ ' ' :: joinSpace (y :: ys)) = _
      rw [nonWS_append, nonWS_space_cons, ih]
      simp [List.flatten_cons, nonWS_append, List.append_assoc]

/-- The delimiter characters of the segmenter: the newline boundary and
the marks that terminate a sentence (danda, double danda, period,
exclamation mark, question mark), together with the double quote. -/
def isDelim (c : Char) : Bool :=
  c = '\n' || c = '।' || c = '॥' || c = '.' || c = '!' || c = '?' || c = '"'

/-- C1: joining the sentences emitted by splitIntoSentences with a single
space preserves the whole non-whitespace content of the input in order
(so the danda, double danda, period, exclamation mark, question mark and
double quote delimiters are all preserved, newlines being whitespace);
in particular every non-whitespace, non-delimiter character of the input
is preserved in the input's order. -/
theorem splitIntoSentences_complete (s : List Char) :
    nonWS (joinSpace (splitIntoSentences s)) = nonWS s ∧
    (joinSpace (splitIntoSentences s)).filter (fun c => !(isWS c) && !(isDelim c)) =
      s.filter (fun c => !(isWS c) && !(isDelim c)) := by
  have h1 : nonWS (joinSpace (splitIntoSentences s)) = nonWS s := by
    rw [nonWS_joinSpace, nonWS_splitIntoSentences]
  refine ⟨h1, ?_⟩
  have key : ∀ l : List Char,
      l.filter (fun c => !(isWS c) && !(isDelim c)) =
        (nonWS l).filter (fun c => !(isDelim c)) := by
    intro l
    rw [show nonWS l = l.filter (fun c => !(isWS c)) from rfl, List.filter_filter]
    exact (List.filter_congr (fun x _ => Bool.and_comm _ _)).symm
  rw [key, key, h1]

/-! ### Every emitted sentence is non-empty and trimmed -/

lemma repairAux_trimmed : ∀ rev pending : List (List Char),
    (∀ e ∈ rev, trim e = e) → (∀ p ∈ pending, trim p = p) →
    ∀ t ∈ repairAux rev pending, trim t = t := by
  intro rev pending
  induction rev, pending using repairAux.induct with
  | case1 rev =>
    intro hrev _ t ht
    rw [repairAux.eq_1] at ht
    exact hrev t (List.mem_reverse.mp ht)
  | case2 rev rest ih =>
    intro hrev hpend t ht
    rw [repairAux_skip] at ht
    exact ih hrev (fun p hp2 => hpend p (List.mem_cons_of_mem _ hp2)) t ht
  | case3 seg rest hne hp next rest2 ih =>
    intro hrev hpend t ht
    rw [repairAux_merge hne hp] at ht
    apply ih ?_ (fun p hp2 => hpend p (List.mem_cons_of_mem _ hp2)) t ht
    intro e he
    rcases List.mem_cons.mp he with h1 | h2
    · rw [h1]
      exact trim_trim _
    · exact hrev e (List.mem_cons_of_mem _ h2)
  | case4 seg hne hp next rest2 ih =>
    intro hrev hpend t ht
    rw [repairAux_prepend hne hp] at ht
    apply ih hrev ?_ t ht
    intro p hp2
    rcases List.mem_cons.mp hp2 with h1 | h2
    · rw [h1]
      exact trim_trim _
    · exact hpend p (by simp [h2])
  | case5 seg hne hp ih =>
    intro hrev hpend t ht
    rw [repairAux_orphan hne hp] at ht
    apply ih ?_ (by intro p hp2; simp at hp2) t ht
    intro e he
    rcases List.mem_cons.mp he with h1 | h2
    · rw [h1]
      exact hpend seg (List.mem_cons_self _ _)
    · simp at h2
  | case6 rev seg rest hne hp ih =>
    intro hrev hpend t ht
    rw [repairAux_push hne (by simpa using hp)] at ht
    apply ih ?_ (fun p hp2 => hpend p (List.mem_cons_of_mem _ hp2)) t ht
    intro e he
    rcases List.mem_cons.mp he with h1 | h2
    · rw [h1]
      exact hpend seg (List.mem_cons_self _ _)
    · exact hrev e h2

/-- C10: every string in the list returned by splitIntoSentences is
non-empty and carries no leading or trailing whitespace (it equals its
own trim). -/
theorem splitIntoSentences_nonempty_trimmed (s : List Char) :
    ∀ t ∈ splitIntoSentences s, t ≠ [] ∧ trim t = t := by
  intro t h
  unfold splitIntoSentences at h
  obtain ⟨hmem, hcond⟩ := List.mem_filter.mp h
  refine ⟨by simpa using hcond, ?_⟩
  exact repairAux_trimmed [] (rawSegments s) (by simp)
    (fun p hp => (rawSegments_out hp).1) t hmem

/-- Witness for C10 at the concrete input "ab.". -/
theorem splitIntoSentences_nonempty_trimmed_witness :
    ['a', 'b', '.'] ∈ splitIntoSentences "ab.".toList ∧
      (['a', 'b', '.'] ≠ [] ∧ trim ['a', 'b', '.'] = ['a', 'b', '.']) := by
  have hmem : ['a', 'b', '.'] ∈ splitIntoSentences "ab.".toList := by
    have h1 : rawSegments "ab.".toList = [['a', 'b', '.']] := by decide
    simp only [splitIntoSentences, h1, repairAux]
    decide
  exact ⟨hmem, splitIntoSentences_nonempty_trimmed "ab.".toList ['a', 'b', '.'] hmem⟩

/-! ### Letters and the repair pass -/

lemma punc_no_letter {seg : List Char} (hp : isStandalonePunc seg = true) :
    hasLetter seg = false := by
  unfold isStandalonePunc at hp
  split_ifs at hp with h
  simpa using hp

lemma punc_false_letter {seg : List Char} (hne : seg ≠ []) (htr : trim seg = seg)
    (hp : isStandalonePunc seg = false) : hasLetter seg = true := by
  unfold isStandalonePunc at hp
  rw [htr] at hp
  rw [if_neg (by simp [hne])] at hp
  simpa using hp

lemma hasLetter_space_cons (s : List Char) : hasLetter (' ' :: s) = hasLetter s := by
  have h : isLetterChar ' ' = false := by decide
  simp [hasLetter, List.any_cons, h]

lemma repairAux_letters : ∀ rev pending : List (List Char),
    (∀ p ∈ pending, trim p = p) →
    (∀ e ∈ rev, hasLetter e = true) →
    (rev ≠ [] ∨ ∃ p ∈ pending, hasLetter p = true) →
    ∀ t ∈ repairAux rev pending, hasLetter t = true := by
  intro rev pending
  induction rev, pending using repairAux.induct with
  | case1 rev =>
    intro _ hrev _ t ht
    rw [repairAux.eq_1] at ht
    exact hrev t (List.mem_reverse.mp ht)
  | case2 rev rest ih =>
    intro hpend hrev hex t ht
    rw [repairAux_skip] at ht
    apply ih (fun p hp2 => hpend p (List.mem_cons_of_mem _ hp2)) hrev ?_ t ht
    rcases hex with h | ⟨p, hp2, hl⟩
    · exact Or.inl h
    · rcases List.mem_cons.mp hp2 with h1 | h2
      · rw [h1] at hl
        simp [hasLetter] at hl
      · exact Or.inr ⟨p, h2, hl⟩
  | case3 seg rest hne hp next rest2 ih =>
    intro hpend hrev hex t ht
    rw [repairAux_merge hne hp] at ht
    apply ih (fun p hp2 => hpend p (List.mem_cons_of_mem _ hp2)) ?_
      (Or.inl (by simp)) t ht
    intro e he
    rcases List.mem_cons.mp he with h1 | h2
    · rw [h1, hasLetter_trim, hasLetter_append, hasLetter_space_cons,
        hrev next (List.mem_cons_self _ _)]
      simp
    · exact hrev e (List.mem_cons_of_mem _ h2)
  | case4 seg hne hp next rest2 ih =>
    intro hpend hrev hex t ht
    rw [repairAux_prepend hne hp] at ht
    apply ih ?_ hrev ?_ t ht
    · intro p hp2
      rcases List.mem_cons.mp hp2 with h1 | h2
      · rw [h1]
        exact trim_trim _
      · exact hpend p (by simp [h2])
    · rcases hex with h | ⟨p, hp2, hl⟩
      · exact absurd rfl h
      · right
        rcases List.mem_cons.mp hp2 with h1 | h2
        · rw [h1, punc_no_letter hp] at hl
          exact absurd hl (by simp)
        · rcases List.mem_cons.mp h2 with h3 | h4
          · refine ⟨trim (seg ++ ' ' :: next), List.mem_cons_self _ _, ?_⟩
            rw [hasLetter_trim, hasLetter_append, hasLetter_space_cons, ← h3, hl]
            simp
          · exact ⟨p, List.mem_cons_of_mem _ h4, hl⟩
  | case5 seg hne hp ih =>
    intro hpend hrev hex t ht
    rcases hex with h | ⟨p, hp2, hl⟩
    · exact absurd rfl h
    · have hps : p = seg := by simpa using hp2
      rw [hps, punc_no_letter hp] at hl
      exact absurd hl (by simp)
  | case6 rev seg rest hne hp ih =>
    intro hpend hrev hex t ht
    rw [repairAux_push hne (by simpa using hp)] at ht
    have hl : hasLetter seg = true :=
      punc_false_letter hne (hpend seg (List.mem_cons_self _ _)) (by simpa using hp)
    apply ih (fun p hp2 => hpend p (List.mem_cons_of_mem _ hp2)) ?_
      (Or.inl (by simp)) t ht
    intro e he
    rcases List.mem_cons.mp he with h1 | h2
    · rw [h1]
      exact hl
    · exact hrev e h2

/-- C4 counterexample: the input consisting of a period, a newline and an
exclamation mark has a raw split of two fragments, yet the repair pass
still outputs a single sentence consisting only of non-letter characters,
contradicting the claim that this can happen only when the raw split
yields exactly one fragment. -/
theorem splitIntoSentences_degenerate_counterexample :
    splitIntoSentences ".\n!".toList = [['.', ' ', '!']] ∧
    (rawSegments ".\n!".toList).length = 2 ∧
    hasLetter ['.', ' ', '!'] = false := by
  refine ⟨?_, by decide, by decide⟩
  have h1 : rawSegments ".\n!".toList = [['.'], ['!']] := by decide
  simp only [splitIntoSentences, h1, repairAux]
  decide

/-- C4 amended: after the repair pass no emitted sentence is empty, and an
emitted sentence with no letter character can occur only when every raw
fragment of the input is letterless (the letterless fragments are then
all merged into the remaining output). -/
theorem splitIntoSentences_no_degenerate (s : List Char) :
    ∀ t ∈ splitIntoSentences s,
      t ≠ [] ∧ (hasLetter t = true ∨ ∀ r ∈ rawSegments s, hasLetter r = false) := by
  intro t ht
  unfold splitIntoSentences at ht
  obtain ⟨hmem, hcond⟩ := List.mem_filter.mp ht
  refine ⟨by simpa using hcond, ?_⟩
  by_cases hall : ∀ r ∈ rawSegments s, hasLetter r = false
  · exact Or.inr hall
  · left
    push_neg at hall
    obtain ⟨r, hr, hrl⟩ := hall
    exact repairAux_letters [] (rawSegments s) (fun p hp => (rawSegments_out hp).1)
      (by simp) (Or.inr ⟨r, hr, by simpa using hrl⟩) t hmem

/-- Witness for the amended C4 at the concrete input "xy.". -/
theorem splitIntoSentences_no_degenerate_witness :
    ['x', 'y', '.'] ∈ splitIntoSentences "xy.".toList ∧
      (['x', 'y', '.'] ≠ [] ∧ (hasLetter ['x', 'y', '.'] = true ∨
        ∀ r ∈ rawSegments "xy.".toList, hasLetter r = false)) := by
  have hmem : ['x', 'y', '.'] ∈ splitIntoSentences "xy.".toList := by
    have h1 : rawSegments "xy.".toList = [['x', 'y', '.']] := by decide
    simp only [splitIntoSentences, h1, repairAux]
    decide
  exact ⟨hmem, splitIntoSentences_no_degenerate "xy.".toList ['x', 'y', '.'] hmem⟩

/-- C5: an odd number of double quotes leaves the scanner with inQuote
true at end of input; the trailing buffer, if non-empty after trimming,
is still emitted by the final flush as the last raw segment, and the scan
still loses no non-whitespace text. -/
theorem unterminated_quote_flush (s : List Char) (h : s.count '"' % 2 = 1) :
    (scanList ⟨[], false⟩ s).1.inQuote = true ∧
    (trim (scanList ⟨[], false⟩ s).1.current ≠ [] →
      rawSegments s = (scanList ⟨[], false⟩ s).2 ++
        [trim (scanList ⟨[], false⟩ s).1.current]) ∧
    nonWS (rawSegments s).flatten = nonWS s := by
  refine ⟨?_, ?_, nonWS_rawSegments s⟩
  · rw [scanList_parity]
    simp [h]
  · intro hne
    simp only [rawSegments, emitTrim, if_neg hne]

/-- Witness for C5 at the concrete input of a quote followed by two
letters, whose quote never closes. -/
theorem unterminated_quote_flush_witness :
    ("\"ab".toList.count '"' % 2 = 1) ∧
    ((scanList ⟨[], false⟩ "\"ab".toList).1.inQuote = true ∧
      (trim (scanList ⟨[], false⟩ "\"ab".toList).1.current ≠ [] →
        rawSegments "\"ab".toList = (scanList ⟨[], false⟩ "\"ab".toList).2 ++
          [trim (scanList ⟨[], false⟩ "\"ab".toList).1.current]) ∧
      nonWS (rawSegments "\"ab".toList).flatten = nonWS "\"ab".toList) :=
  ⟨by decide, unterminated_quote_flush "\"ab".toList (by decide)⟩

/-! ### Scanning a quoted span -/

lemma scanChar_quote_open {st : ScanState} (h : st.inQuote = false) :
    scanChar st '"' = (⟨st.current ++ ['"'], true⟩, []) := by
  simp [scanChar, h]

lemma scanChar_quote_close {st : ScanState} (h : st.inQuote = true) :
    scanChar st '"' = (⟨[], false⟩, [trim (st.current ++ ['"'])]) := by
  have hne : trim (st.current ++ ['"']) ≠ [] :=
    trim_nonempty_of_mem (by decide : isWS '"' = false) (by simp)
  simp [scanChar, h, emitTrim, hne]

lemma scanList_span {mid : List Char} (hmid : '"' ∉ mid) (st : ScanState)
    (h : st.inQuote = false) :
    scanList st ('"' :: mid ++ ['"']) =
      (⟨[], false⟩, [trim (st.current ++ '"' :: mid ++ ['"'])]) := by
  show scanList st ('"' :: (mid ++ ['"'])) = _
  rw [scanList, scanChar_quote_open h, scanList_append mid ['"'],
    scanList_quoteRun hmid]
  show ((scanList ⟨st.current ++ ['"'] ++ mid, true⟩ ['"']).1,
    [] ++ _) = _
  rw [scanList, scanChar_quote_close rfl, scanList]
  simp [List.append_assoc]

lemma rawSegments_span {pre mid : List Char} (post : List Char)
    (hpre : pre.count '"' % 2 = 0) (hmid : '"' ∉ mid) :
    ∃ A B cur0,
      rawSegments (pre ++ '"' :: mid ++ '"' :: post) =
        A ++ trim (cur0 ++ '"' :: mid ++ ['"']) :: B := by
  have hform : pre ++ '"' :: mid ++ '"' :: post =
      pre ++ (('"' :: mid ++ ['"']) ++ post) := by simp
  have hq0 : (scanList ⟨[], false⟩ pre).1.inQuote = false := by
    rw [scanList_parity]
    simp [Nat.mod_two_ne_one.mpr hpre]
  refine ⟨(scanList ⟨[], false⟩ pre).2,
    (scanList ⟨[], false⟩ post).2 ++
      emitTrim (scanList ⟨[], false⟩ post).1.current,
    (scanList ⟨[], false⟩ pre).1.current, ?_⟩
  simp only [rawSegments, hform, scanList_append pre, scanList_append ('"' :: mid ++ ['"']),
    scanList_span hmid _ hq0]
  simp [List.append_assoc]

/-! ### The repair pass keeps a non-whitespace-ended infix inside one sentence -/

lemma repairAux_infix {c d : Char} {m : List Char} (hc : isWS c = false)
    (hd : isWS d = false) :
    ∀ rev pending : List (List Char),
    ((∃ e ∈ rev, (c :: m ++ [d]) <:+: e) ∨ (∃ e ∈ pending, (c :: m ++ [d]) <:+: e)) →
    ∃ t ∈ (repairAux rev pending).filter (fun t => t ≠ []), (c :: m ++ [d]) <:+: t := by
  intro rev pending
  induction rev, pending using repairAux.induct with
  | case1 rev =>
    intro hex
    rw [repairAux.eq_1]
    rcases hex with ⟨e, he, hinf⟩ | ⟨e, he, hinf⟩
    · refine ⟨e, List.mem_filter.mpr ⟨List.mem_reverse.mpr he, ?_⟩, hinf⟩
      have hne : e ≠ [] := by
        intro h0
        rw [h0] at hinf
        simpa using hinf.length_le
      simpa using hne
    · simp at he
  | case2 rev rest ih =>
    intro hex
    rw [repairAux_skip]
    apply ih
    rcases hex with h | ⟨e, he, hinf⟩
    · exact Or.inl h
    · rcases List.mem_cons.mp he with h1 | h2
      · rw [h1] at hinf
        simpa using hinf.length_le
      · exact Or.inr ⟨e, h2, hinf⟩
  | case3 seg rest hne hp next rest2 ih =>
    intro hex
    rw [repairAux_merge hne hp]
    apply ih
    rcases hex with ⟨e, he, hinf⟩ | ⟨e, he, hinf⟩
    · rcases List.mem_cons.mp he with h1 | h2
      · exact Or.inl ⟨trim (next ++ ' ' :: seg), List.mem_cons_self _ _,
          infix_trim hc hd ((h1 ▸ hinf).trans ⟨[], ' ' :: seg, by simp⟩)⟩
      · exact Or.inl ⟨e, List.mem_cons_of_mem _ h2, hinf⟩
    · rcases List.mem_cons.mp he with h1 | h2
      · exact Or.inl ⟨trim (next ++ ' ' :: seg), List.mem_cons_self _ _,
          infix_trim hc hd ((h1 ▸ hinf).trans ⟨next ++ [' '], [], by simp⟩)⟩
      · exact Or.inr ⟨e, h2, hinf⟩
  | case4 seg hne hp next rest2 ih =>
    intro hex
    rw [repairAux_prepend hne hp]
    apply ih
    rcases hex with ⟨e, he, _⟩ | ⟨e, he, hinf⟩
    · simp at he
    · right
      rcases List.mem_cons.mp he with h1 | h2
      · exact ⟨trim (seg ++ ' ' :: next), List.mem_cons_self _ _,
          infix_trim hc hd ((h1 ▸ hinf).trans ⟨[], ' ' :: next, by simp⟩)⟩
      · rcases List.mem_cons.mp h2 with h3 | h4
        · exact ⟨trim (seg ++ ' ' :: next), List.mem_cons_self _ _,
            infix_trim hc hd ((h3 ▸ hinf).trans ⟨seg ++ [' '], [], by simp⟩)⟩
        · exact ⟨e, List.mem_cons_of_mem _ h4, hinf⟩
  | case5 seg hne hp ih =>
    intro hex
    rw [repairAux_orphan hne hp]
    apply ih
    rcases hex with ⟨e, he, _⟩ | ⟨e, he, hinf⟩
    · simp at he
    · left
      have hes : e = seg := by simpa using he
      exact ⟨seg, List.mem_cons_self _ _, hes ▸ hinf⟩
  | case6 rev seg rest hne hp ih =>
    intro hex
    rw [repairAux_push hne (by simpa using hp)]
    apply ih
    rcases hex with ⟨e, he, hinf⟩ | ⟨e, he, hinf⟩
    · exact Or.inl ⟨e, List.mem_cons_of_mem _ he, hinf⟩
    · rcases List.mem_cons.mp he with h1 | h2
      · exact Or.inl ⟨seg, List.mem_cons_self _ _, h1 ▸ hinf⟩
      · exact Or.inr ⟨e, h2, hinf⟩

/-- C2: for every input containing a quoted span (the input decomposes as
a prefix with a balanced number of double quotes, an opening quote, a
quote-free body containing a sentence-final mark or newline, a closing
quote, and a tail), the whole quoted span, quotes included, appears
contiguously inside a single sentence of the output: it is never split at
the marks inside the quotes. -/
theorem quote_atomicity (pre mid post : List Char)
    (hpre : pre.count '"' % 2 = 0) (hmid : '"' ∉ mid)
    (hpunct : ∃ c ∈ mid,
      c = '।' ∨ c = '॥' ∨ c = '.' ∨ c = '!' ∨ c = '?' ∨ c = '\n') :
    ∃ t ∈ splitIntoSentences (pre ++ '"' :: mid ++ '"' :: post),
      ('"' :: mid ++ ['"']) <:+: t := by
  obtain ⟨A, B, cur0, hraw⟩ := rawSegments_span post hpre hmid
  unfold splitIntoSentences
  apply repairAux_infix (by decide) (by decide)
  right
  refine ⟨trim (cur0 ++ '"' :: mid ++ ['"']), by rw [hraw]; simp, ?_⟩
  exact infix_trim (by decide) (by decide) ⟨cur0, [], by simp⟩

/-- Witness for C2: a quoted exclamation embedded after a sentence. -/
theorem quote_atomicity_witness :
    ∃ t ∈ splitIntoSentences
        ("x.".toList ++ '"' :: ['a', '!'] ++ '"' :: " y".toList),
      ('"' :: ['a', '!'] ++ ['"']) <:+: t :=
  quote_atomicity "x.".toList ['a', '!'] " y".toList (by decide) (by decide)
    ⟨'!', by decide, by decide⟩

/-! ### Two letterful spans stay in two distinct sentences -/

lemma repairAux_two_phase2 {c1 d1 c2 d2 : Char} {m1 m2 : List Char}
    (hc2 : isWS c2 = false) (hd2 : isWS d2 = false) :
    ∀ rev pending : List (List Char),
    (∃ u e2c w e1c z, rev = u ++ e2c :: w ++ e1c :: z ∧
      (c1 :: m1 ++ [d1]) <:+: e1c ∧ (c2 :: m2 ++ [d2]) <:+: e2c) →
    ∃ l1 s1 l2 s2 l3,
      (repairAux rev pending).filter (fun t => t ≠ []) = l1 ++ s1 :: l2 ++ s2 :: l3 ∧
      (c1 :: m1 ++ [d1]) <:+: s1 ∧ (c2 :: m2 ++ [d2]) <:+: s2 := by
  intro rev pending
  induction rev, pending using repairAux.induct with
  | case1 rev =>
    rintro ⟨u, e2c, w, e1c, z, hrev, h1, h2⟩
    rw [repairAux.eq_1, hrev]
    have he1 : e1c ≠ [] := by
      intro h0
      rw [h0] at h1
      simpa using h1.length_le
    have he2 : e2c ≠ [] := by
      intro h0
      rw [h0] at h2
      simpa using h2.length_le
    refine ⟨(z.reverse.filter (fun t => t ≠ [])), e1c,
      (w.reverse.filter (fun t => t ≠ [])), e2c,
      (u.reverse.filter (fun t => t ≠ [])), ?_, h1, h2⟩
    simp [List.reverse_append, List.filter_append, List.filter_cons, he1, he2,
      List.append_assoc]
  | case2 rev rest ih =>
    intro hex
    rw [repairAux_skip]
    exact ih hex
  | case3 seg rest hne hp next rest2 ih =>
    rintro ⟨u, e2c, w, e1c, z, hrev, h1, h2⟩
    rw [repairAux_merge hne hp]
    apply ih
    cases u with
    | nil =>
      have hnext : next = e2c := by
        have := congrArg (fun l => List.head? l) hrev
        simpa using this
      have hrest2 : rest2 = w ++ e1c :: z := by
        have := congrArg (fun l => List.tail l) hrev
        simpa using this
      refine ⟨[], trim (next ++ ' ' :: seg), w, e1c, z, by simp [hrest2], h1, ?_⟩
      exact infix_trim hc2 hd2 ((hnext ▸ h2).trans ⟨[], ' ' :: seg, by simp⟩)
    | cons v u2 =>
      have hnext : next = v := by
        have := congrArg (fun l => List.head? l) hrev
        simpa using this
      have hrest2 : rest2 = u2 ++ e2c :: w ++ e1c :: z := by
        have := congrArg (fun l => List.tail l) hrev
        simpa using this
      exact ⟨trim (next ++ ' ' :: seg) :: u2, e2c, w, e1c, z, by simp [hrest2], h1, h2⟩
  | case4 seg hne hp next rest2 ih =>
    rintro ⟨u, e2c, w, e1c, z, hrev, h1, h2⟩
    exact absurd hrev.symm (by simp)
  | case5 seg hne hp ih =>
    rintro ⟨u, e2c, w, e1c, z, hrev, h1, h2⟩
    exact absurd hrev.symm (by simp)
  | case6 rev seg rest hne hp ih =>
    rintro ⟨u, e2c, w, e1c, z, hrev, h1, h2⟩
    rw [repairAux_push hne (by simpa using hp)]
    apply ih
    exact ⟨seg :: u, e2c, w, e1c, z, by simp [hrev], h1, h2⟩

lemma repairAux_two_phase1 {c1 d1 c2 d2 : Char} {m1 m2 : List Char}
    (hc1 : isWS c1 = false) (hd1 : isWS d1 = false)
    (hc2 : isWS c2 = false) (hd2 : isWS d2 = false) :
    ∀ rev pending : List (List Char),
    (∃ w e1c z, rev = w ++ e1c :: z ∧ (c1 :: m1 ++ [d1]) <:+: e1c) →
    (∃ B e2c C, pending = B ++ e2c :: C ∧ (c2 :: m2 ++ [d2]) <:+: e2c ∧
      hasLetter e2c = true) →
    (∀ p ∈ pending, trim p = p) →
    ∃ l1 s1 l2 s2 l3,
      (repairAux rev pending).filter (fun t => t ≠ []) = l1 ++ s1 :: l2 ++ s2 :: l3 ∧
      (c1 :: m1 ++ [d1]) <:+: s1 ∧ (c2 :: m2 ++ [d2]) <:+: s2 := by
  intro rev pending
  induction rev, pending using repairAux.induct with
  | case1 rev =>
    rintro _ ⟨B, e2c, C, hdec, _, _⟩ _
    exact absurd hdec.symm (by simp)
  | case2 rev rest ih =>
    rintro hrev ⟨B, e2c, C, hdec, hinf2, hl2⟩ htrim
    rw [repairAux_skip]
    cases B with
    | nil =>
      simp only [List.nil_append] at hdec
      injection hdec with hh ht
      rw [← hh] at hl2
      simp [hasLetter] at hl2
    | cons b B2 =>
      simp only [List.cons_append] at hdec
      injection hdec with hh ht
      exact ih hrev ⟨B2, e2c, C, ht, hinf2, hl2⟩
        (fun p hp2 => htrim p (List.mem_cons_of_mem _ hp2))
  | case3 seg rest hne hp next rest2 ih =>
    rintro ⟨w, e1c, z, hrev, hinf1⟩ ⟨B, e2c, C, hdec, hinf2, hl2⟩ htrim
    rw [repairAux_merge hne hp]
    cases B with
    | nil =>
      simp only [List.nil_append] at hdec
      injection hdec with hh ht
      rw [← hh, punc_no_letter hp] at hl2
      exact absurd hl2 (by simp)
    | cons b B2 =>
      simp only [List.cons_append] at hdec
      injection hdec with hh ht
      cases w with
      | nil =>
        simp only [List.nil_append] at hrev
        injection hrev with hh2 ht2
        refine ih ⟨[], trim (next ++ ' ' :: seg), z, by simp [ht2], ?_⟩
          ⟨B2, e2c, C, ht, hinf2, hl2⟩
          (fun p hp2 => htrim p (List.mem_cons_of_mem _ hp2))
        exact infix_trim hc1 hd1
          ((show (c1 :: m1 ++ [d1]) <:+: next by rw [hh2]; exact hinf1).trans
            ⟨[], ' ' :: seg, by simp⟩)
      | cons v w2 =>
        simp only [List.cons_append] at hrev
        injection hrev with hh2 ht2
        exact ih ⟨trim (next ++ ' ' :: seg) :: w2, e1c, z, by simp [ht2], hinf1⟩
          ⟨B2, e2c, C, ht, hinf2, hl2⟩
          (fun p hp2 => htrim p (List.mem_cons_of_mem _ hp2))
  | case4 seg hne hp next rest2 ih =>
    rintro ⟨w, e1c, z, hrev, _⟩ _ _
    exact absurd hrev.symm (by simp)
  | case5 seg hne hp ih =>
    rintro ⟨w, e1c, z, hrev, _⟩ _ _
    exact absurd hrev.symm (by simp)
  | case6 rev seg rest hne hp ih =>
    rintro ⟨w, e1c, z, hrev, hinf1⟩ ⟨B, e2c, C, hdec, hinf2, hl2⟩ htrim
    rw [repairAux_push hne (by simpa using hp)]
    cases B with
    | nil =>
      simp only [List.nil_append] at hdec
      injection hdec with hh ht
      apply repairAux_two_phase2 hc2 hd2
      refine ⟨[], seg, w, e1c, z, by simp [hrev], hinf1, ?_⟩
      rw [hh]
      exact hinf2
    | cons b B2 =>
      simp only [List.cons_append] at hdec
      injection hdec with hh ht
      exact ih ⟨seg :: w, e1c, z, by simp [hrev], hinf1⟩
        ⟨B2, e2c, C, ht, hinf2, hl2⟩
        (fun p hp2 => htrim p (List.mem_cons_of_mem _ hp2))

lemma repairAux_two_phase0 {c1 d1 c2 d2 : Char} {m1 m2 : List Char}
    (hc1 : isWS c1 = false) (hd1 : isWS d1 = false)
    (hc2 : isWS c2 = false) (hd2 : isWS d2 = false) :
    ∀ rev pending : List (List Char),
    (∃ A e1c B e2c C, pending = A ++ e1c :: B ++ e2c :: C ∧
      (c1 :: m1 ++ [d1]) <:+: e1c ∧ hasLetter e1c = true ∧
      (c2 :: m2 ++ [d2]) <:+: e2c ∧ hasLetter e2c = true) →
    (∀ p ∈ pending, trim p = p) →
    ∃ l1 s1 l2 s2 l3,
      (repairAux rev pending).filter (fun t => t ≠ []) = l1 ++ s1 :: l2 ++ s2 :: l3 ∧
      (c1 :: m1 ++ [d1]) <:+: s1 ∧ (c2 :: m2 ++ [d2]) <:+: s2 := by
  intro rev pending
  induction rev, pending using repairAux.induct with
  | case1 rev =>
    rintro ⟨A, e1c, B, e2c, C, hdec, _, _, _, _⟩ _
    exact absurd hdec.symm (by simp)
  | case2 rev rest ih =>
    rintro ⟨A, e1c, B, e2c, C, hdec, hinf1, hl1, hinf2, hl2⟩ htrim
    rw [repairAux_skip]
    cases A with
    | nil =>
      simp only [List.nil_append] at hdec
      injection hdec with hh ht
      rw [← hh] at hl1
      simp [hasLetter] at hl1
    | cons a A2 =>
      simp only [List.cons_append] at hdec
      injection hdec with hh ht
      exact ih ⟨A2, e1c, B, e2c, C, ht, hinf1, hl1, hinf2, hl2⟩
        (fun p hp2 => htrim p (List.mem_cons_of_mem _ hp2))
  | case3 seg rest hne hp next rest2 ih =>
    rintro ⟨A, e1c, B, e2c, C, hdec, hinf1, hl1, hinf2, hl2⟩ htrim
    rw [repairAux_merge hne hp]
    cases A with
    | nil =>
      simp only [List.nil_append] at hdec
      injection hdec with hh ht
      rw [← hh, punc_no_letter hp] at hl1
      exact absurd hl1 (by simp)
    | cons a A2 =>
      simp only [List.cons_append] at hdec
      injection hdec with hh ht
      exact ih ⟨A2, e1c, B, e2c, C, ht, hinf1, hl1, hinf2, hl2⟩
        (fun p hp2 => htrim p (List.mem_cons_of_mem _ hp2))
  | case4 seg hne hp next rest2 ih =>
    rintro ⟨A, e1c, B, e2c, C, hdec, hinf1, hl1, hinf2, hl2⟩ htrim
    rw [repairAux_prepend hne hp]
    cases A with
    | nil =>
      simp only [List.nil_append] at hdec
      injection hdec with hh ht
      rw [← hh, punc_no_letter hp] at hl1
      exact absurd hl1 (by simp)
    | cons a A2 =>
      simp only [List.cons_append] at hdec
      injection hdec with hh ht
      cases A2 with
      | nil =>
        simp only [List.nil_append] at ht
        injection ht with hh2 ht2
        refine ih ⟨[], trim (seg ++ ' ' :: next), B, e2c, C, by simp [ht2],
          ?_, ?_, hinf2, hl2⟩ ?_
        · exact infix_trim hc1 hd1
            ((show (c1 :: m1 ++ [d1]) <:+: next by rw [hh2]; exact hinf1).trans
              ⟨seg ++ [' '], [], by simp⟩)
        · rw [hasLetter_trim, hasLetter_append, hasLetter_space_cons]
          have hln : hasLetter next = true := by rw [hh2]; exact hl1
          simp [hln]
        · intro p hp2
          rcases List.mem_cons.mp hp2 with h1 | h2
          · rw [h1]
            exact trim_trim _
          · exact htrim p (by simp [h2])
      | cons a2 A3 =>
        simp only [List.cons_append] at ht
        injection ht with hh2 ht2
        refine ih ⟨trim (seg ++ ' ' :: next) :: A3, e1c, B, e2c, C, by simp [ht2],
          hinf1, hl1, hinf2, hl2⟩ ?_
        intro p hp2
        rcases List.mem_cons.mp hp2 with h1 | h2
        · rw [h1]
          exact trim_trim _
        · exact htrim p (by simp [h2])
  | case5 seg hne hp ih =>
    rintro ⟨A, e1c, B, e2c, C, hdec, _, _, _, _⟩ _
    have hlen := congrArg List.length hdec
    simp at hlen
    omega
  | case6 rev seg rest hne hp ih =>
    rintro ⟨A, e1c, B, e2c, C, hdec, hinf1, hl1, hinf2, hl2⟩ htrim
    rw [repairAux_push hne (by simpa using hp)]
    cases A with
    | nil =>
      simp only [List.nil_append] at hdec
      injection hdec with hh ht
      apply repairAux_two_phase1 hc1 hd1 hc2 hd2 (seg :: rev) rest
        ⟨[], seg, rev, by simp, by rw [hh]; exact hinf1⟩
        ⟨B, e2c, C, ht, hinf2, hl2⟩
        (fun p hp2 => htrim p (List.mem_cons_of_mem _ hp2))
    | cons a A2 =>
      simp only [List.cons_append] at hdec
      injection hdec with hh ht
      exact ih ⟨A2, e1c, B, e2c, C, ht, hinf1, hl1, hinf2, hl2⟩
        (fun p hp2 => htrim p (List.mem_cons_of_mem _ hp2))

lemma hasLetter_span (cur m : List Char) (hm : hasLetter m = true) :
    hasLetter (cur ++ '"' :: m ++ ['"']) = true := by
  unfold hasLetter at hm ⊢
  simp [List.any_append, List.any_cons, hm]

lemma rawSegments_two_spans {pre m1 sep m2 : List Char} (post : List Char)
    (hpre : pre.count '"' % 2 = 0) (hm1 : '"' ∉ m1) (hsep : '"' ∉ sep)
    (hm2 : '"' ∉ m2) :
    ∃ A cur0 B cur1 C,
      rawSegments (pre ++ '"' :: m1 ++ '"' :: sep ++ '"' :: m2 ++ '"' :: post) =
        A ++ trim (cur0 ++ '"' :: m1 ++ ['"']) ::
          (B ++ trim (cur1 ++ '"' :: m2 ++ ['"']) :: C) := by
  have hform : pre ++ '"' :: m1 ++ '"' :: sep ++ '"' :: m2 ++ '"' :: post =
      pre ++ (('"' :: m1 ++ ['"']) ++ (sep ++ (('"' :: m2 ++ ['"']) ++ post))) := by
    simp
  have hq0 : (scanList ⟨[], false⟩ pre).1.inQuote = false := by
    rw [scanList_parity]
    simp [Nat.mod_two_ne_one.mpr hpre]
  have hqs : (scanList ⟨[], false⟩ sep).1.inQuote = false := by
    rw [scanList_parity]
    simp [List.count_eq_zero.mpr hsep]
  refine ⟨(scanList ⟨[], false⟩ pre).2, (scanList ⟨[], false⟩ pre).1.current,
    (scanList ⟨[], false⟩ sep).2, (scanList ⟨[], false⟩ sep).1.current,
    (scanList ⟨[], false⟩ post).2 ++
      emitTrim (scanList ⟨[], false⟩ post).1.current, ?_⟩
  simp only [rawSegments, hform, scanList_append pre,
    scanList_append ('"' :: m1 ++ ['"']), scanList_span hm1 _ hq0,
    scanList_append sep, scanList_append ('"' :: m2 ++ ['"']),
    scanList_span hm2 _ hqs]
  simp [List.append_assoc]

/-- C3 counterexample: the input made of two letterless quoted spans
separated by a space (two quoted spans separated only by non-quote text)
is emitted as a SINGLE output sentence containing both spans: the repair
pass merges the two standalone-punctuation fragments produced by the two
closing quotes. -/
theorem two_quotes_merged_counterexample :
    ("\"!\" \"?\"".toList =
      [] ++ '"' :: ['!'] ++ '"' :: ([' '] ++ '"' :: ['?'] ++ '"' :: [])) ∧
    splitIntoSentences "\"!\" \"?\"".toList =
      [['"', '!', '"', ' ', '"', '?', '"']] := by
  refine ⟨by decide, ?_⟩
  have h1 : rawSegments "\"!\" \"?\"".toList =
      [['"', '!', '"'], ['"', '?', '"']] := by decide
  simp only [splitIntoSentences, h1, repairAux]
  decide

/-- C3 amended: for every input containing two quoted spans separated
only by non-quote text, provided each span's body contains at least one
letter character, the two spans are emitted in two distinct output
sentences, the first span's sentence strictly before the second span's;
without the letter proviso the repair pass may merge two letterless
quoted spans into one sentence. -/
theorem speaker_boundary_split (pre m1 sep m2 post : List Char)
    (hpre : pre.count '"' % 2 = 0) (hm1 : '"' ∉ m1) (hsep : '"' ∉ sep)
    (hm2 : '"' ∉ m2) (hl1 : hasLetter m1 = true) (hl2 : hasLetter m2 = true) :
    ∃ l1 s1 l2 s2 l3,
      splitIntoSentences (pre ++ '"' :: m1 ++ '"' :: sep ++ '"' :: m2 ++ '"' :: post) =
        l1 ++ s1 :: l2 ++ s2 :: l3 ∧
      ('"' :: m1 ++ ['"']) <:+: s1 ∧ ('"' :: m2 ++ ['"']) <:+: s2 := by
  obtain ⟨A, cur0, B, cur1, C, hraw⟩ :=
    rawSegments_two_spans post hpre hm1 hsep hm2
  unfold splitIntoSentences
  apply repairAux_two_phase0 (by decide) (by decide) (by decide) (by decide) []
    _ ?_ (fun p hp => (rawSegments_out hp).1)
  refine ⟨A, trim (cur0 ++ '"' :: m1 ++ ['"']), B,
    trim (cur1 ++ '"' :: m2 ++ ['"']), C, by rw [hraw]; simp, ?_, ?_, ?_, ?_⟩
  · exact infix_trim (by decide) (by decide) ⟨cur0, [], by simp⟩
  · rw [hasLetter_trim]
    exact hasLetter_span cur0 m1 hl1
  · exact infix_trim (by decide) (by decide) ⟨cur1, [], by simp⟩
  · rw [hasLetter_trim]
    exact hasLetter_span cur1 m2 hl2

/-- Witness for the amended C3 at two letterful quoted spans separated by
a space. -/
theorem speaker_boundary_split_witness :
    ∃ l1 s1 l2 s2 l3,
      splitIntoSentences
          ([] ++ '"' :: ['a'] ++ '"' :: [' '] ++ '"' :: ['b'] ++ '"' :: []) =
        l1 ++ s1 :: l2 ++ s2 :: l3 ∧
      ('"' :: ['a'] ++ ['"']) <:+: s1 ∧ ('"' :: ['b'] ++ ['"']) <:+: s2 :=
  speaker_boundary_split [] ['a'] [' '] ['b'] [] (by decide) (by decide)
    (by decide) (by decide) (by decide) (by decide)

/-! ### Transliteration helper: devanagariToIAST, applyRules, rule loading -/

/-- One correction rule of the transliteration rule set: the "from"
pattern and the "to" replacement of a transliteration_rules.json entry
(a missing "to" is the empty string, matching rule.to or the empty
string in the source).  Patterns are modelled as literal strings applied
by global find-and-replace, which is how the spec describes the rule
stage. -/
structure TransRule where
  pat : List Char
  rep : List Char
deriving DecidableEq, Repr

/-- Whether the pattern matches at the head of the string. -/
def leadsWith : List Char → List Char → Bool
  | [], _ => true
  | _ :: _, [] => false
  | p :: ps, c :: cs => p = c && leadsWith ps cs

/-- Global find-and-replace of a literal pattern, the JS
String.prototype.replace with a global regex built from the rule pattern:
leftmost non-overlapping matches are replaced and scanning resumes after
the replacement.  An empty pattern performs no replacement. -/
def replaceAll (pat rep : List Char) : List Char → List Char
  | [] => []
  | c :: cs =>
    if pat ≠ [] ∧ leadsWith pat (c :: cs) = true then
      rep ++ replaceAll pat rep ((c :: cs).drop pat.length)
    else c :: replaceAll pat rep cs
termination_by s => s.length
decreasing_by
  · simp only [List.length_drop, List.length_cons]
    cases pat with
    | nil => simp_all
    | cons p ps => simp; omega
  · simp

/-- Devanagari block test of the cleanup regex range 0900-097F. -/
def isDevanagariBlock (c : Char) : Bool := 0x900 ≤ c.toNat && c.toNat ≤ 0x97F

/-- Combining-mark test of the cleanup regex ranges 0300-036F, 1AB0-1AFF
and 20D0-20FF. -/
def isCombiningMark (c : Char) : Bool :=
  (0x300 ≤ c.toNat && c.toNat ≤ 0x36F) || (0x1AB0 ≤ c.toNat && c.toNat ≤ 0x1AFF) ||
  (0x20D0 ≤ c.toNat && c.toNat ≤ 0x20FF)

/-- The JS replace of one-or-more whitespace by a single space: every
maximal whitespace run collapses to one space character. -/
def collapseWS : List Char → List Char
  | [] => []
  | [c] => if isWS c then [' '] else [c]
  | c :: d :: cs =>
    if isWS c then
      if isWS d then collapseWS (d :: cs) else ' ' :: collapseWS (d :: cs)
    else c :: collapseWS (d :: cs)

/-- The cleanup tail of applyRules (transliterate-canonical.js lines
21-25): strip stray Devanagari characters, strip combining marks,
collapse whitespace runs, then trim. -/
def cleanup (s : List Char) : List Char :=
  trim (collapseWS ((s.filter (fun c => !(isDevanagariBlock c))).filter
    (fun c => !(isCombiningMark c))))

/-- applyRules (transliterate-canonical.js lines 15-26): apply each rule
of the loaded list in load order as a global find-and-replace over the
running text, then run the cleanup tail.  The module-global
rules.diacritical list is passed explicitly. -/
def applyRules (rules : List TransRule) (iastText : List Char) : List Char :=
  cleanup (rules.foldl (fun out rule => replaceAll rule.pat rule.rep out) iastText)

/-- devanagariToIAST (transliterate-canonical.js lines 28-37): falsy
(empty) input short-circuits to the empty string; otherwise the base
Sanscript transliteration runs inside a try block whose catch degrades
any thrown error to the empty string.  The external Sanscript
collaborator is a parameter returning either a result or a thrown
error. -/
def devanagariToIAST (baseT : List Char → Except (List Char) (List Char))
    (rules : List TransRule) (text : List Char) : List Char :=
  if text = [] then []
  else
    match baseT text with
    | Except.ok base => applyRules rules base
    | Except.error _ => []

/-- The module-load of transliteration_rules.json (lines 8-13): a read or
parse failure is caught and leaves the default empty list; a parsed
object without the diacritical field also leaves the default; otherwise
the parsed list is installed. -/
def loadRules : Except (List Char) (Option (List TransRule)) → List TransRule
  | Except.error _ => []
  | Except.ok none => []
  | Except.ok (some l) => l

/-- C6: transliteration is total, a plain function into strings by
construction (nothing propagates to the caller); the empty input returns
the empty string, and any error thrown inside the try block by the base
transliteration stage is caught and degraded to the empty string. -/
theorem devanagariToIAST_total (baseT : List Char → Except (List Char) (List Char))
    (rules : List TransRule) :
    devanagariToIAST baseT rules [] = [] ∧
    ∀ text err, baseT text = Except.error err →
      devanagariToIAST baseT rules text = [] := by
  refine ⟨rfl, ?_⟩
  intro text err herr
  unfold devanagariToIAST
  by_cases ht : text = []
  · simp [ht]
  · simp [ht, herr]

/-- Witness for C6 at a base stage that always throws. -/
theorem devanagariToIAST_total_witness :
    devanagariToIAST (fun _ => Except.error "boom".toList) [] [] = [] ∧
      devanagariToIAST (fun _ => Except.error "boom".toList) [] ['x'] = [] := by
  have h := devanagariToIAST_total (fun _ => Except.error "boom".toList) []
  exact ⟨h.1, h.2 ['x'] "boom".toList rfl⟩

/-- C7 counterexample: with the identity base transliteration and the
single deletion rule from "x" to the empty string (a rule shape the
source supports through rule.to or the empty string), the truthy input
"x" succeeds in the base stage yet transliterates to the empty string:
a non-empty result is NOT guaranteed for every truthy input whose base
stage succeeds. -/
theorem devanagariToIAST_empty_counterexample :
    (['x'] : List Char) ≠ [] ∧
    (fun s => (Except.ok s : Except (List Char) (List Char))) ['x'] =
      Except.ok ['x'] ∧
    devanagariToIAST (fun s => (Except.ok s : Except (List Char) (List Char)))
      [⟨['x'], []⟩] ['x'] = [] := by
  refine ⟨by decide, rfl, ?_⟩
  have h1 : replaceAll ['x'] [] ['x'] = [] := by simp [replaceAll, leadsWith]
  simp only [devanagariToIAST]
  rw [if_neg (by decide)]
  show applyRules [⟨['x'], []⟩] ['x'] = []
  simp only [applyRules, List.foldl]
  rw [h1]
  rfl

/-- C7 amended: devanagariToIAST always returns a string (by its type),
and the result is empty exactly when the input was empty or falsy, the
base stage threw, or the correction-rule and cleanup stage applyRules
reduced the successful base output to the empty string (for example a
deletion rule, or a base output of stray Devanagari, combining marks or
whitespace only). -/
theorem devanagariToIAST_empty_iff (baseT : List Char → Except (List Char) (List Char))
    (rules : List TransRule) (text : List Char) :
    devanagariToIAST baseT rules text = [] ↔
      (text = [] ∨ (∃ e, baseT text = Except.error e) ∨
        (∃ b, baseT text = Except.ok b ∧ applyRules rules b = [])) := by
  unfold devanagariToIAST
  by_cases ht : text = []
  · simp [ht]
  · rw [if_neg ht]
    cases hb : baseT text with
    | ok b => simp [ht, hb]
    | error e => simp [ht, hb]

/-- C8: rule application is order-dependent.  With rule A mapping "a" to
"b" and rule B mapping "b" to "c" (so B's pattern matches text that A's
replacement introduces), applying the list in load order A then B to the
input "a" yields B's correction "c", while the reversed order yields
"b": the two orders disagree, so rule application is not commutative. -/
theorem applyRules_order_dependent :
    applyRules [⟨['a'], ['b']⟩, ⟨['b'], ['c']⟩] ['a'] = ['c'] ∧
    applyRules [⟨['b'], ['c']⟩, ⟨['a'], ['b']⟩] ['a'] = ['b'] ∧
    applyRules [⟨['a'], ['b']⟩, ⟨['b'], ['c']⟩] ['a'] ≠
      applyRules [⟨['b'], ['c']⟩, ⟨['a'], ['b']⟩] ['a'] := by
  have h1 : replaceAll ['a'] ['b'] ['a'] = ['b'] := by simp [replaceAll, leadsWith]
  have h2 : replaceAll ['b'] ['c'] ['b'] = ['c'] := by simp [replaceAll, leadsWith]
  have h3 : replaceAll ['b'] ['c'] ['a'] = ['a'] := by simp [replaceAll, leadsWith]
  have ha : applyRules [⟨['a'], ['b']⟩, ⟨['b'], ['c']⟩] ['a'] = ['c'] := by
    simp only [applyRules, List.foldl]
    rw [h1, h2]
    rfl
  have hb : applyRules [⟨['b'], ['c']⟩, ⟨['a'], ['b']⟩] ['a'] = ['b'] := by
    simp only [applyRules, List.foldl]
    rw [h3, h1]
    rfl
  refine ⟨ha, hb, ?_⟩
  rw [ha, hb]
  decide

/-- C9: a failed load of the rule configuration (unreadable or
unparseable file, or a parse without the diacritical field) yields the
empty rule list; with the empty rule list the correction stage performs
no replacement at all, so applyRules is exactly the cleanup pass; and
transliteration still runs the base stage followed by that cleanup,
raising no error. -/
theorem missing_rules_passthrough :
    (∀ e, loadRules (Except.error e) = []) ∧
    loadRules (Except.ok none) = [] ∧
    (∀ text, applyRules [] text = cleanup text) ∧
    (∀ baseT : List Char → Except (List Char) (List Char), ∀ text b,
      text ≠ [] → baseT text = Except.ok b →
      devanagariToIAST baseT [] text = cleanup b) := by
  refine ⟨fun e => rfl, rfl, fun text => rfl, ?_⟩
  intro baseT text b ht hb
  unfold devanagariToIAST
  rw [if_neg ht, hb]
  rfl

/-- Witness for C9 at the concrete failed load "ENOENT" and input "q". -/
theorem missing_rules_passthrough_witness :
    loadRules (Except.error "ENOENT".toList) = [] ∧
    loadRules (Except.ok none) = [] ∧
    applyRules [] ['q'] = cleanup ['q'] ∧
    devanagariToIAST (fun s => (Except.ok s : Except (List Char) (List Char)))
      [] ['q'] = cleanup ['q'] := by
  have h := missing_rules_passthrough
  exact ⟨h.1 "ENOENT".toList, h.2.1, h.2.2.1 ['q'],
    h.2.2.2 (fun s => (Except.ok s : Except (List Char) (List Char))) ['q'] ['q']
      (by decide) rfl⟩
